import Mathlib

/-!
Verification of `bev::linear_ringbuffer_` from
`src/include/bev/linear_ringbuffer.hpp`.

Shallow embedding conventions:
* Platform model is LP64 Linux, the platform the header targets
  (`unistd.h`, `sys/mman.h`, `mremap`): `size_t` and pointers are 64-bit,
  `int` and `unsigned int` are 32-bit, and the page size is 4096.
* Machine integers are `Nat`/`Int` with explicit reductions modulo
  `2^32`/`2^64` exactly where the C code's conversions and arithmetic
  perform them.  Signed `int` overflow (undefined behaviour in C) is
  modelled as the usual two's-complement wraparound.
* Addresses are plain `Nat`, with `0` playing the role of `nullptr`.
* The kernel's `mmap`/`mremap` calls are modelled by an oracle
  (`AllocEnv`) describing the outcome of each allocation step; the
  one POSIX-guaranteed fact the proofs rely on is that a zero-length
  `mmap` fails (`AllocEnv.wf`).
-/

namespace Bev

/-- Platform page size (`sysconf(_SC_PAGESIZE)`), 4096 on the common
platforms the spec references. -/
def PAGE_SIZE : Nat := 4096

/-- Modulus of `unsigned int` (32-bit). -/
def UINT_MOD : Nat := 2 ^ 32

/-- Modulus of `size_t` (64-bit, LP64). -/
def SIZET_MOD : Nat := 2 ^ 64

/-- `2^63`, used for the two's-complement wrap of `int64_t`. -/
def INT64_HALF : Nat := 2 ^ 63

/-- Linux errno value for invalid argument. -/
def EINVAL : Nat := 22

/-- Linux errno value for try-again. -/
def EAGAIN : Nat := 11

/-- Linux errno value for out-of-memory. -/
def ENOMEM : Nat := 12

/-- Conversion of a (possibly signed) integer value to `size_t`:
reduce modulo `2^64`, result read as a nonnegative machine value. -/
def size_t_of (x : Int) : Nat := (x % (SIZET_MOD : Int)).toNat

/-- Two's-complement wrap of an integer into the range of `int64_t`.
This is what `int64_t` compound assignment with a `size_t` operand
computes on the common implementations. -/
def int64_of (x : Int) : Int := (x + (INT64_HALF : Int)) % (SIZET_MOD : Int) - (INT64_HALF : Int)

/-- Conversion of a 32-bit `int` bit pattern (given as its unsigned
value `< 2^32`) to `size_t`: sign-extension. -/
def int32_to_sizet (x : Nat) : Nat := if x < 2 ^ 31 then x else SIZET_MOD - UINT_MOD + x

/-- The five data members of `linear_ringbuffer_<Size>`:
`unsigned char* buffer_; size_t capacity_; size_t head_; size_t tail_;
Size size_;`.  The counter `size_` is `int64_t` (`linear_ringbuffer_st`)
or `std::atomic<int64_t>` (`linear_ringbuffer_mt`); both perform the
same sequential arithmetic, modelled on `Int`. -/
structure LinearRingbuffer where
  buffer_ : Nat
  capacity_ : Nat
  head_ : Nat
  tail_ : Nat
  size_ : Int
deriving DecidableEq, Repr

/-- `commit(n)`: `tail_ = (tail_ + n) % capacity_; size_ += n;`
(`tail_ + n` is `size_t` arithmetic, hence the mod `2^64`). -/
def commit (rb : LinearRingbuffer) (n : Nat) : LinearRingbuffer :=
  { rb with
    tail_ := ((rb.tail_ + n) % SIZET_MOD) % rb.capacity_
    size_ := int64_of (rb.size_ + n) }

/-- `consume(n)`: `head_ = (head_ + n) % capacity_; size_ -= n;`. -/
def consume (rb : LinearRingbuffer) (n : Nat) : LinearRingbuffer :=
  { rb with
    head_ := ((rb.head_ + n) % SIZET_MOD) % rb.capacity_
    size_ := int64_of (rb.size_ - n) }

/-- `clear()`: `tail_ = head_ = size_ = 0;`. -/
def clear (rb : LinearRingbuffer) : LinearRingbuffer :=
  { rb with head_ := 0, tail_ := 0, size_ := 0 }

/-- `size()`: returns `size_` converted to `size_t`. -/
def size (rb : LinearRingbuffer) : Nat := size_t_of rb.size_

/-- `capacity()`: returns `capacity_`. -/
def capacity (rb : LinearRingbuffer) : Nat := rb.capacity_

/-- `free_size()`: returns `capacity_ - size_` (computed in `size_t`). -/
def free_size (rb : LinearRingbuffer) : Nat :=
  size_t_of ((rb.capacity_ : Int) - rb.size_)

/-- `cbegin()`: `buffer_ + head_` (address of the first live byte). -/
def cbegin (rb : LinearRingbuffer) : Nat := rb.buffer_ + rb.head_

/-- `cend()`: `head_ < tail_ ? buffer_ + tail_ : buffer_ + tail_ + capacity_`. -/
def cend (rb : LinearRingbuffer) : Nat :=
  if rb.head_ < rb.tail_ then rb.buffer_ + rb.tail_ else rb.buffer_ + rb.tail_ + rb.capacity_

/-- `cend() - cbegin()` as the C++ `ptrdiff_t` difference. -/
def it_diff (rb : LinearRingbuffer) : Int := (cend rb : Int) - (cbegin rb : Int)

/-- The state established by the `delayed_init` constructor:
`buffer_(nullptr), capacity_(0), head_(0), tail_(0), size_(0)`. -/
def delayed_init_state : LinearRingbuffer := ⟨0, 0, 0, 0, 0⟩

/-- Oracle for the outcomes of the three allocation syscalls performed by
`linear_ringbuffer_::initialize` (the member state never depends on the
addresses in any other way):
* `mmap_ len`: result of `mmap(NULL, len, ...)` — `some base` or
  `none` for `MAP_FAILED` (with `mmapErrno` the errno it sets);
* `shrink_ok`: whether `mremap(addr, 2*bytes, bytes, 0)` succeeds
  (an in-place shrink keeps the base address);
* `alias_`: result of `mremap(addr, 0, bytes, MREMAP_MAYMOVE, addr+bytes)` —
  the address the second mapping landed at, or `none` for `MAP_FAILED`. -/
structure AllocEnv where
  mmap_ : Nat → Option Nat
  mmapErrno : Nat
  shrink_ok : Bool
  shrinkErrno : Nat
  alias_ : Option Nat
  aliasErrno : Nat

/-- POSIX guarantees that a zero-length `mmap` fails with `EINVAL`;
this is the only constraint the development puts on the oracle. -/
def AllocEnv.wf (env : AllocEnv) : Prop := env.mmap_ 0 = none

/-- Result of `initialize`: the `int` return value, the `errno` it left
behind (meaningful when `ret = -1`), and the object's member state. -/
structure InitOutcome where
  ret : Int
  errno : Nat
  st : LinearRingbuffer
deriving DecidableEq, Repr

/-- The page-rounding computation of `initialize`:
`int bytes = minsize & ~(PAGE_SIZE-1); if (minsize % PAGE_SIZE) bytes += PAGE_SIZE;`.
`~(PAGE_SIZE-1)` is `unsigned int`, so the mask zero-extends to
`2^32 - PAGE_SIZE` and discards the high 32 bits of `minsize`; the
result is tracked as the unsigned 32-bit pattern of the `int bytes`
(the `+=` wraps modulo `2^32`). -/
def rb_bytes (minsize : Nat) : Nat :=
  let bytes0 := minsize &&& (UINT_MOD - PAGE_SIZE)
  if minsize % PAGE_SIZE ≠ 0 then (bytes0 + PAGE_SIZE) % UINT_MOD else bytes0

/-- `linear_ringbuffer_::initialize(size_t minsize)`, acting on member
state `st`, with allocation outcomes supplied by `env`.  Mirrors the
source line by line:
* `minsize == 0` → `EINVAL`;
* page rounding via `rb_bytes`;
* overflow check `if (bytes*2u < bytes)` → `EINVAL` (32-bit unsigned);
* `mmap(NULL, 2*bytes, ...)` — `2*bytes` is `int` arithmetic whose
  pattern is sign-extended to the `size_t` parameter;
* shrink `mremap`, alias `mremap`, the `addr2 != addr+bytes` race check
  (`EAGAIN`);
* on success `capacity_ = bytes; buffer_ = addr;` — note that `head_`,
  `tail_` and `size_` are NOT written by `initialize`;
* every error path (`errout`) unmaps but leaves all members unchanged. -/
def rb_init (st : LinearRingbuffer) (minsize : Nat) (env : AllocEnv) : InitOutcome :=
  if minsize = 0 then ⟨-1, EINVAL, st⟩
  else
    let bytes := rb_bytes minsize
    if (2 * bytes) % UINT_MOD < bytes then ⟨-1, EINVAL, st⟩
    else
      match env.mmap_ (int32_to_sizet ((2 * bytes) % UINT_MOD)) with
      | none => ⟨-1, env.mmapErrno, st⟩
      | some addr =>
        if env.shrink_ok then
          match env.alias_ with
          | none => ⟨-1, env.aliasErrno, st⟩
          | some addr2 =>
            if addr2 = addr + bytes then
              ⟨0, 0, { st with capacity_ := int32_to_sizet bytes, buffer_ := addr }⟩
            else ⟨-1, EAGAIN, st⟩
        else ⟨-1, env.shrinkErrno, st⟩

/-- Net effect of `linear_ringbuffer_::swap`, which exchanges all five
members with `std::swap`. -/
def swap_rb (a b : LinearRingbuffer) : LinearRingbuffer × LinearRingbuffer :=
  (⟨b.buffer_, b.capacity_, b.head_, b.tail_, b.size_⟩,
   ⟨a.buffer_, a.capacity_, a.head_, a.tail_, a.size_⟩)

/-- Move-assignment `rb = std::move(rb)` with `this == &other`:
`linear_ringbuffer_ tmp(delayed_init {}); tmp.swap(other); this->swap(tmp);`
with both `other` and `*this` aliasing the same object `rb`. -/
def move_assign_self (rb : LinearRingbuffer) : LinearRingbuffer :=
  let tmp := delayed_init_state
  let s1 := swap_rb tmp rb
  let s2 := swap_rb s1.2 s1.1
  s2.1

/-- States reachable from a successfully initialized (via the
deferred-construction surface, starting at the `delayed_init`
placeholder) buffer by `commit`/`consume`/`clear` calls that respect
their documented preconditions. -/
inductive Reachable : LinearRingbuffer → Prop where
  | init_ok (minsize : Nat) (env : AllocEnv) (hwf : env.wf)
      (hret : (rb_init delayed_init_state minsize env).ret = 0) :
      Reachable (rb_init delayed_init_state minsize env).st
  | commit_step (rb : LinearRingbuffer) (n : Nat) (hr : Reachable rb)
      (hn : n ≤ free_size rb) : Reachable (commit rb n)
  | consume_step (rb : LinearRingbuffer) (n : Nat) (hr : Reachable rb)
      (hn : n ≤ size rb) : Reachable (consume rb n)
  | clear_step (rb : LinearRingbuffer) (hr : Reachable rb) : Reachable (clear rb)

/-- The inductive invariant carried by every reachable state. -/
def Inv (rb : LinearRingbuffer) : Prop :=
  0 < rb.capacity_ ∧ rb.capacity_ < 2 ^ 31 ∧
  rb.head_ < rb.capacity_ ∧ rb.tail_ < rb.capacity_ ∧
  0 ≤ rb.size_ ∧ rb.size_ ≤ (rb.capacity_ : Int) ∧
  ((rb.head_ : Int) + rb.size_ = rb.tail_ ∨
   (rb.head_ : Int) + rb.size_ = (rb.tail_ : Int) + rb.capacity_)

/-- A concrete allocation oracle on which every syscall succeeds, with
the primary mapping at address 65536 and the alias landing exactly at
`addr + 4096` (matching a 4096-byte buffer). -/
def env_ok : AllocEnv :=
  ⟨fun len => if len = 0 then none else some 65536, ENOMEM, true, ENOMEM, some 69632, ENOMEM⟩

/-- The freshly initialized 4096-byte buffer. -/
def st0 : LinearRingbuffer := (rb_init delayed_init_state 4096 env_ok).st

/-- The fresh buffer filled to capacity by a single full commit. -/
def full_state : LinearRingbuffer := commit st0 4096

/-! ## Helper lemmas -/

/-- A value below twice the modulus reduces either to itself or by one
subtraction of the modulus. -/
theorem nat_mod_small_cases (a c : Nat) (h : a < 2 * c) :
    a % c = a ∨ a % c + c = a := by
  rcases Nat.lt_or_ge a c with h1 | h1
  · exact Or.inl (Nat.mod_eq_of_lt h1)
  · right
    rw [Nat.mod_eq_sub_mod h1, Nat.mod_eq_of_lt (by omega)]
    omega

/-- `size_t` conversion is the identity on values already in range. -/
theorem size_t_of_eq (x : Int) (h1 : 0 ≤ x) (h2 : x < (SIZET_MOD : Int)) :
    size_t_of x = x.toNat := by
  unfold size_t_of
  rw [Int.emod_eq_of_lt h1 h2]

/-- `int64_t` wraparound is the identity on values already in range. -/
theorem int64_of_eq (x : Int) (h1 : -(INT64_HALF : Int) ≤ x) (h2 : x < (INT64_HALF : Int)) :
    int64_of x = x := by
  unfold int64_of
  rw [Int.emod_eq_of_lt (by simp only [INT64_HALF] at h1 ⊢; omega)
    (by simp only [INT64_HALF, SIZET_MOD] at h2 ⊢; omega)]
  omega

/-- Under the invariant, `size()` is just the counter. -/
theorem inv_size_eq (rb : LinearRingbuffer) (h : Inv rb) : (size rb : Int) = rb.size_ := by
  obtain ⟨h1, h2, h3, h4, h5, h6, h7⟩ := h
  unfold size
  rw [size_t_of_eq rb.size_ h5 (by simp only [SIZET_MOD]; push_cast; omega)]
  exact Int.toNat_of_nonneg h5

/-- Under the invariant, `free_size()` is `capacity_ - size_`. -/
theorem inv_free_size_eq (rb : LinearRingbuffer) (h : Inv rb) :
    (free_size rb : Int) = (rb.capacity_ : Int) - rb.size_ := by
  obtain ⟨h1, h2, h3, h4, h5, h6, h7⟩ := h
  unfold free_size
  rw [size_t_of_eq _ (by omega) (by simp only [SIZET_MOD]; push_cast; omega)]
  exact Int.toNat_of_nonneg (by omega)

/-- The page-rounded byte count is a 32-bit value. -/
theorem rb_bytes_lt (m : Nat) : rb_bytes m < 2 ^ 32 := by
  have hmask : m &&& (UINT_MOD - PAGE_SIZE) ≤ UINT_MOD - PAGE_SIZE := Nat.and_le_right
  simp only [rb_bytes]
  split
  · exact Nat.mod_lt _ (by simp only [UINT_MOD]; omega)
  · simp only [UINT_MOD, PAGE_SIZE] at hmask ⊢
    omega

/-- On every path, `initialize` either leaves the member state untouched
or returns 0. -/
theorem rb_init_st_or_ret (st : LinearRingbuffer) (m : Nat) (env : AllocEnv) :
    (rb_init st m env).st = st ∨ (rb_init st m env).ret = 0 := by
  by_cases hm : m = 0
  · left; simp [rb_init, hm]
  by_cases hchk : (2 * rb_bytes m) % UINT_MOD < rb_bytes m
  · left; simp [rb_init, hm, hchk]
  rcases hmm : env.mmap_ (int32_to_sizet ((2 * rb_bytes m) % UINT_MOD)) with _ | addr
  · left; simp [rb_init, hm, hchk, hmm]
  by_cases hsh : env.shrink_ok
  · rcases hal : env.alias_ with _ | addr2
    · left; simp [rb_init, hm, hchk, hmm, hsh, hal]
    by_cases hplace : addr2 = addr + rb_bytes m
    · right; simp [rb_init, hm, hchk, hmm, hsh, hal, hplace]
    · left; simp [rb_init, hm, hchk, hmm, hsh, hal, hplace]
  · left; simp [rb_init, hm, hchk, hmm, hsh]

/-- A successful `initialize` run from any member state sets
`capacity_ = rb_bytes m` with `0 < rb_bytes m < 2^31`, sets `buffer_` to
the mapped base address, and leaves `head_`, `tail_` and `size_` alone. -/
theorem rb_init_ok_shape (st : LinearRingbuffer) (m : Nat) (env : AllocEnv) (hwf : env.wf)
    (hret : (rb_init st m env).ret = 0) :
    0 < rb_bytes m ∧ rb_bytes m < 2 ^ 31 ∧
    ∃ addr, (rb_init st m env).st =
      { st with capacity_ := rb_bytes m, buffer_ := addr } := by
  have hb32 : rb_bytes m < 2 ^ 32 := rb_bytes_lt m
  by_cases hm : m = 0
  · simp only [rb_init, if_pos hm] at hret
    exact absurd hret (by decide)
  by_cases hchk : (2 * rb_bytes m) % UINT_MOD < rb_bytes m
  · simp only [rb_init, if_neg hm, if_pos hchk] at hret
    exact absurd hret (by decide)
  have hb31 : rb_bytes m < 2 ^ 31 := by
    by_contra hge
    apply hchk
    have h1 : 2 ^ 32 ≤ 2 * rb_bytes m := by omega
    have h2 : (2 * rb_bytes m) % UINT_MOD = 2 * rb_bytes m - 2 ^ 32 := by
      simp only [UINT_MOD]
      rw [Nat.mod_eq_sub_mod (by omega), Nat.mod_eq_of_lt (by omega)]
    simp only [UINT_MOD] at *
    omega
  have hb0 : rb_bytes m ≠ 0 := by
    intro h0
    rw [AllocEnv.wf] at hwf
    simp only [rb_init, if_neg hm, if_neg hchk] at hret
    rw [h0] at hret
    norm_num [int32_to_sizet, UINT_MOD, hwf] at hret
  rcases hmm : env.mmap_ (int32_to_sizet ((2 * rb_bytes m) % UINT_MOD)) with _ | addr
  · simp only [rb_init, if_neg hm, if_neg hchk, hmm] at hret
    exact absurd hret (by decide)
  by_cases hsh : env.shrink_ok
  · rcases hal : env.alias_ with _ | addr2
    · simp only [rb_init, if_neg hm, if_neg hchk, hmm, if_pos hsh, hal] at hret
      exact absurd hret (by decide)
    by_cases hplace : addr2 = addr + rb_bytes m
    · refine ⟨by omega, hb31, addr, ?_⟩
      simp only [rb_init, if_neg hm, if_neg hchk, hmm, if_pos hsh, hal, if_pos hplace]
      simp only [int32_to_sizet, if_pos hb31]
    · simp only [rb_init, if_neg hm, if_neg hchk, hmm, if_pos hsh, hal, if_neg hplace] at hret
      exact absurd hret (by decide)
  · simp only [rb_init, if_neg hm, if_neg hchk, hmm, if_neg hsh] at hret
    exact absurd hret (by decide)

/-- A successful `initialize` from the `delayed_init` placeholder
establishes the invariant. -/
theorem inv_init (m : Nat) (env : AllocEnv) (hwf : env.wf)
    (hret : (rb_init delayed_init_state m env).ret = 0) :
    Inv (rb_init delayed_init_state m env).st := by
  obtain ⟨hb0, hb31, addr, hst⟩ := rb_init_ok_shape delayed_init_state m env hwf hret
  rw [hst]
  simp only [Inv, delayed_init_state]
  refine ⟨hb0, hb31, hb0, hb0, ?_⟩
  simp

/-- `commit` preserves the invariant when its precondition holds. -/
theorem inv_commit (rb : LinearRingbuffer) (n : Nat) (h : Inv rb)
    (hn : n ≤ free_size rb) : Inv (commit rb n) := by
  have hfs := inv_free_size_eq rb h
  obtain ⟨h1, h2, h3, h4, h5, h6, h7⟩ := h
  have hn' : (n : Int) ≤ (rb.capacity_ : Int) - rb.size_ := by
    rw [← hfs]; exact_mod_cast hn
  have hnn : n ≤ rb.capacity_ := by omega
  have ht64 : (rb.tail_ + n) % SIZET_MOD = rb.tail_ + n :=
    Nat.mod_eq_of_lt (by simp only [SIZET_MOD]; omega)
  have htc := nat_mod_small_cases (rb.tail_ + n) rb.capacity_ (by omega)
  have hs : int64_of (rb.size_ + n) = rb.size_ + n :=
    int64_of_eq _ (by simp only [INT64_HALF]; omega) (by simp only [INT64_HALF]; omega)
  have htl : (rb.tail_ + n) % rb.capacity_ < rb.capacity_ := Nat.mod_lt _ h1
  simp only [Inv, commit, ht64, hs]
  generalize hT : (rb.tail_ + n) % rb.capacity_ = T at htc htl ⊢
  push_cast
  omega

/-- `consume` preserves the invariant when its precondition holds. -/
theorem inv_consume (rb : LinearRingbuffer) (n : Nat) (h : Inv rb)
    (hn : n ≤ size rb) : Inv (consume rb n) := by
  have hsz := inv_size_eq rb h
  obtain ⟨h1, h2, h3, h4, h5, h6, h7⟩ := h
  have hn' : (n : Int) ≤ rb.size_ := by
    rw [← hsz]; exact_mod_cast hn
  have hnn : n ≤ rb.capacity_ := by omega
  have hh64 : (rb.head_ + n) % SIZET_MOD = rb.head_ + n :=
    Nat.mod_eq_of_lt (by simp only [SIZET_MOD]; omega)
  have hhc := nat_mod_small_cases (rb.head_ + n) rb.capacity_ (by omega)
  have hs : int64_of (rb.size_ - n) = rb.size_ - n :=
    int64_of_eq _ (by simp only [INT64_HALF]; omega) (by simp only [INT64_HALF]; omega)
  have hhl : (rb.head_ + n) % rb.capacity_ < rb.capacity_ := Nat.mod_lt _ h1
  simp only [Inv, consume, hh64, hs]
  generalize hH : (rb.head_ + n) % rb.capacity_ = H at hhc hhl ⊢
  push_cast
  omega

/-- `clear` preserves the invariant. -/
theorem inv_clear (rb : LinearRingbuffer) (h : Inv rb) : Inv (clear rb) := by
  obtain ⟨h1, h2, h3, h4, h5, h6, h7⟩ := h
  simp only [Inv, clear]
  refine ⟨h1, h2, h1, h1, ?_⟩
  simp

/-- Every reachable state satisfies the invariant. -/
theorem reachable_inv (rb : LinearRingbuffer) (h : Reachable rb) : Inv rb := by
  induction h with
  | init_ok m env hwf hret => exact inv_init m env hwf hret
  | commit_step rb n hr hn ih => exact inv_commit rb n ih hn
  | consume_step rb n hr hn ih => exact inv_consume rb n ih hn
  | clear_step rb hr ih => exact inv_clear rb ih

/-- The fresh 4096-byte buffer state is reachable. -/
theorem reach_st0 : Reachable st0 := Reachable.init_ok 4096 env_ok rfl rfl

/-- The full buffer state is reachable (one full-capacity commit). -/
theorem reach_full : Reachable full_state :=
  Reachable.commit_step st0 4096 reach_st0 (by decide)

/-! ## Claim theorems -/

/-- C1 (amended): in every state reachable from a successfully
initialized buffer by precondition-respecting `commit`/`consume`/`clear`
calls, `size` is congruent to `tail - head` modulo `capacity`; moreover
`size = (tail - head) mod capacity` holds exactly as claimed unless the
buffer is full, where `size = capacity` while `(tail - head) mod
capacity = 0`. -/
theorem c1_size_mod_invariant (rb : LinearRingbuffer) (h : Reachable rb) :
    (size rb : Int) % (capacity rb : Int) =
      ((rb.tail_ : Int) - (rb.head_ : Int)) % (capacity rb : Int) ∧
    ((size rb : Int) = ((rb.tail_ : Int) - (rb.head_ : Int)) % (capacity rb : Int) ∨
     size rb = capacity rb) := by
  have hI := reachable_inv rb h
  have hsz := inv_size_eq rb hI
  obtain ⟨h1, h2, h3, h4, h5, h6, h7⟩ := hI
  rw [hsz]
  unfold capacity
  rcases h7 with h7 | h7
  · have he : (rb.tail_ : Int) - (rb.head_ : Int) = rb.size_ := by omega
    rw [he, Int.emod_eq_of_lt h5 (by omega)]
    refine ⟨rfl, Or.inl rfl⟩
  · have he : (rb.tail_ : Int) - (rb.head_ : Int) = rb.size_ + -1 * (rb.capacity_ : Int) := by
      omega
    rw [he, Int.add_mul_emod_self]
    by_cases hfull : rb.size_ = (rb.capacity_ : Int)
    · exact ⟨rfl, Or.inr (by omega)⟩
    · rw [Int.emod_eq_of_lt h5 (lt_of_le_of_ne h6 hfull)]
      exact ⟨rfl, Or.inl rfl⟩

/-- C1 witness: the amended invariant evaluated at the fresh buffer. -/
theorem c1_witness :
    (size st0 : Int) % (capacity st0 : Int) =
      ((st0.tail_ : Int) - (st0.head_ : Int)) % (capacity st0 : Int) ∧
    ((size st0 : Int) = ((st0.tail_ : Int) - (st0.head_ : Int)) % (capacity st0 : Int) ∨
     size st0 = capacity st0) :=
  c1_size_mod_invariant st0 reach_st0

/-- C1 counterexample: the claim's exact equation
`size = (tail - head) mod capacity` fails in the reachable full state,
where `size() = 4096` while `(tail - head) mod capacity = 0`. -/
theorem c1_counterexample :
    Reachable full_state ∧ size full_state = 4096 ∧
    ((full_state.tail_ : Int) - (full_state.head_ : Int)) % (capacity full_state : Int) = 0 :=
  ⟨Reachable.commit_step st0 4096 (Reachable.init_ok 4096 env_ok rfl rfl) (by decide),
   by decide, by decide⟩

/-- C2: evaluation of `initialize` at the failing input
`min_size = 2^63 + 4096`.  Its page-rounded value doubled overflows the
64-bit `size_t`, yet `initialize` does not reject it: the 32-bit `int
bytes` computation truncates `min_size` to 4096, the overflow check
passes, allocation is attempted, and (allocation succeeding) the call
returns 0 with `capacity() = 4096`.  `initialize(0)` does fail with
`EINVAL` as claimed. -/
theorem c2_overflow_not_rejected :
    (rb_init delayed_init_state (2 ^ 63 + 4096) env_ok).ret = 0 ∧
    capacity (rb_init delayed_init_state (2 ^ 63 + 4096) env_ok).st = 4096 ∧
    (rb_init delayed_init_state 0 env_ok).ret = -1 ∧
    (rb_init delayed_init_state 0 env_ok).errno = EINVAL := by
  refine ⟨by decide, by decide, by decide, by decide⟩

/-- C3 (amended): in every reachable state the range
`[cbegin(), cend())` spans exactly `size()` bytes whenever the buffer is
nonempty; in an empty state it spans `capacity()` bytes instead of 0. -/
theorem c3_iterator_range (rb : LinearRingbuffer) (h : Reachable rb) :
    it_diff rb = if size rb = 0 then (capacity rb : Int) else (size rb : Int) := by
  have hI := reachable_inv rb h
  have hsz := inv_size_eq rb hI
  obtain ⟨h1, h2, h3, h4, h5, h6, h7⟩ := hI
  unfold it_diff cend cbegin capacity
  by_cases hz : size rb = 0
  · rw [if_pos hz]
    split <;> push_cast <;> omega
  · rw [if_neg hz]
    split <;> push_cast <;> omega

/-- C3 witness: the amended statement evaluated at the full state,
where `cend() - cbegin() = size() = capacity()`. -/
theorem c3_witness :
    it_diff full_state = if size full_state = 0 then (capacity full_state : Int)
      else (size full_state : Int) :=
  c3_iterator_range full_state reach_full

/-- C3 counterexample: in the freshly initialized (empty, reachable)
state, `cend() - cbegin() = 4096` although `size() = 0`, so the range
does not span `size()` bytes in the empty state. -/
theorem c3_counterexample :
    Reachable st0 ∧ size st0 = 0 ∧ it_diff st0 = 4096 :=
  ⟨Reachable.init_ok 4096 env_ok rfl rfl, by decide, by decide⟩

/-- C4: evaluation of `initialize` at the failing input
`min_size = 2^32 + 4096` (already page-aligned).  Rounding up to the
next page multiple would give `2^32 + 4096`, but the 32-bit `int bytes`
computation truncates it to 4096: the call (allocation succeeding)
returns 0 and `capacity()` is 4096, which is neither the page-rounded
`min_size` nor `≥ min_size`. -/
theorem c4_capacity_truncated :
    (rb_init delayed_init_state (2 ^ 32 + 4096) env_ok).ret = 0 ∧
    capacity (rb_init delayed_init_state (2 ^ 32 + 4096) env_ok).st = 4096 ∧
    capacity (rb_init delayed_init_state (2 ^ 32 + 4096) env_ok).st < 2 ^ 32 + 4096 := by
  refine ⟨by decide, by decide, by decide⟩

/-- C5: for every reachable state and `n ≤ free_size()`, `commit(n)`
sets `tail` to `(tail + n) mod capacity`, increases `size` by exactly
`n`, and leaves `capacity` and `head` unchanged. -/
theorem c5_commit_effect (rb : LinearRingbuffer) (n : Nat) (h : Reachable rb)
    (hn : n ≤ free_size rb) :
    (commit rb n).tail_ = (rb.tail_ + n) % capacity rb ∧
    size (commit rb n) = size rb + n ∧
    capacity (commit rb n) = capacity rb ∧
    (commit rb n).head_ = rb.head_ := by
  have hI := reachable_inv rb h
  have hfs := inv_free_size_eq rb hI
  have hsz := inv_size_eq rb hI
  obtain ⟨h1, h2, h3, h4, h5, h6, h7⟩ := hI
  have hn' : (n : Int) ≤ (rb.capacity_ : Int) - rb.size_ := by
    rw [← hfs]; exact_mod_cast hn
  have ht64 : (rb.tail_ + n) % SIZET_MOD = rb.tail_ + n :=
    Nat.mod_eq_of_lt (by simp only [SIZET_MOD]; omega)
  have hs64 : int64_of (rb.size_ + n) = rb.size_ + n :=
    int64_of_eq _ (by simp only [INT64_HALF]; omega) (by simp only [INT64_HALF]; omega)
  refine ⟨by simp only [commit, capacity, ht64], ?_, rfl, rfl⟩
  simp only [commit, size, hs64]
  rw [size_t_of_eq _ (by omega) (by simp only [SIZET_MOD]; push_cast; omega)]
  unfold size at hsz
  omega

/-- C5 witness: `commit(100)` on the fresh buffer. -/
theorem c5_witness :
    (commit st0 100).tail_ = (st0.tail_ + 100) % capacity st0 ∧
    size (commit st0 100) = size st0 + 100 ∧
    capacity (commit st0 100) = capacity st0 ∧
    (commit st0 100).head_ = st0.head_ :=
  c5_commit_effect st0 100 reach_st0 (by decide)

/-- C6: for every reachable state and `n ≤ size()`, `consume(n)` sets
`head` to `(head + n) mod capacity`, decreases `size` by exactly `n`,
and leaves `capacity` and `tail` unchanged. -/
theorem c6_consume_effect (rb : LinearRingbuffer) (n : Nat) (h : Reachable rb)
    (hn : n ≤ size rb) :
    (consume rb n).head_ = (rb.head_ + n) % capacity rb ∧
    size (consume rb n) + n = size rb ∧
    capacity (consume rb n) = capacity rb ∧
    (consume rb n).tail_ = rb.tail_ := by
  have hI := reachable_inv rb h
  have hsz := inv_size_eq rb hI
  obtain ⟨h1, h2, h3, h4, h5, h6, h7⟩ := hI
  have hn' : (n : Int) ≤ rb.size_ := by
    rw [← hsz]; exact_mod_cast hn
  have hh64 : (rb.head_ + n) % SIZET_MOD = rb.head_ + n :=
    Nat.mod_eq_of_lt (by simp only [SIZET_MOD]; omega)
  have hs64 : int64_of (rb.size_ - n) = rb.size_ - n :=
    int64_of_eq _ (by simp only [INT64_HALF]; omega) (by simp only [INT64_HALF]; omega)
  refine ⟨by simp only [consume, capacity, hh64], ?_, rfl, rfl⟩
  simp only [consume, size, hs64]
  rw [size_t_of_eq _ (by omega) (by simp only [SIZET_MOD]; push_cast; omega)]
  unfold size at hsz
  omega

/-- C6 witness: `consume(1000)` on the full buffer. -/
theorem c6_witness :
    (consume full_state 1000).head_ = (full_state.head_ + 1000) % capacity full_state ∧
    size (consume full_state 1000) + 1000 = size full_state ∧
    capacity (consume full_state 1000) = capacity full_state ∧
    (consume full_state 1000).tail_ = full_state.tail_ :=
  c6_consume_effect full_state 1000 reach_full (by decide)

/-- C7: every reachable state satisfies `size() ≤ capacity()` and
`free_size() + size() = capacity()`; `capacity()` is nonzero and is
changed by none of `commit`, `consume`, `clear`. -/
theorem c7_accounting_invariant (rb : LinearRingbuffer) (n : Nat) (h : Reachable rb) :
    size rb ≤ capacity rb ∧
    free_size rb + size rb = capacity rb ∧
    capacity rb ≠ 0 ∧
    capacity (commit rb n) = capacity rb ∧
    capacity (consume rb n) = capacity rb ∧
    capacity (clear rb) = capacity rb := by
  have hI := reachable_inv rb h
  have hfs := inv_free_size_eq rb hI
  have hsz := inv_size_eq rb hI
  obtain ⟨h1, h2, h3, h4, h5, h6, h7⟩ := hI
  unfold capacity at *
  refine ⟨by omega, by omega, by omega, rfl, rfl, rfl⟩

/-- C7 witness: the accounting invariant evaluated at the fresh buffer. -/
theorem c7_witness :
    size st0 ≤ capacity st0 ∧
    free_size st0 + size st0 = capacity st0 ∧
    capacity st0 ≠ 0 ∧
    capacity (commit st0 11) = capacity st0 ∧
    capacity (consume st0 11) = capacity st0 ∧
    capacity (clear st0) = capacity st0 :=
  c7_accounting_invariant st0 11 reach_st0

/-- C8: whenever `initialize` fails (returns -1) on the `delayed_init`
placeholder instance, the member state is still exactly the placeholder
state: null `buffer_`, `capacity_ = 0`, `head_ = tail_ = size_ = 0`, so
the call can be retried. -/
theorem c8_failure_leaves_placeholder (m : Nat) (env : AllocEnv)
    (h : (rb_init delayed_init_state m env).ret = -1) :
    (rb_init delayed_init_state m env).st = ⟨0, 0, 0, 0, 0⟩ := by
  rcases rb_init_st_or_ret delayed_init_state m env with hc | hc
  · rw [hc]; rfl
  · rw [hc] at h
    exact absurd h (by decide)

/-- C8 witness: the failing call `initialize(0)` leaves the placeholder
state intact. -/
theorem c8_witness :
    (rb_init delayed_init_state 0 env_ok).ret = -1 ∧
    (rb_init delayed_init_state 0 env_ok).st = ⟨0, 0, 0, 0, 0⟩ :=
  ⟨by decide, c8_failure_leaves_placeholder 0 env_ok (by decide)⟩

/-- C9: on every reachable state, `commit(0)` and `consume(0)` are
identities: all five members (storage pointer, capacity, head, tail,
size counter) are unchanged. -/
theorem c9_zero_commit_consume_id (rb : LinearRingbuffer) (h : Reachable rb) :
    commit rb 0 = rb ∧ consume rb 0 = rb := by
  have hI := reachable_inv rb h
  obtain ⟨h1, h2, h3, h4, h5, h6, h7⟩ := hI
  have hs : int64_of (rb.size_ + (0 : Nat)) = rb.size_ := by
    rw [int64_of_eq _ (by simp only [INT64_HALF]; omega) (by simp only [INT64_HALF]; omega)]
    push_cast
    omega
  have hs' : int64_of (rb.size_ - (0 : Nat)) = rb.size_ := by
    rw [int64_of_eq _ (by simp only [INT64_HALF]; omega) (by simp only [INT64_HALF]; omega)]
    push_cast
    omega
  have ht1 : (rb.tail_ + 0) % SIZET_MOD = rb.tail_ + 0 :=
    Nat.mod_eq_of_lt (by simp only [SIZET_MOD]; omega)
  have ht : ((rb.tail_ + 0) % SIZET_MOD) % rb.capacity_ = rb.tail_ := by
    rw [ht1, Nat.add_zero]
    exact Nat.mod_eq_of_lt h4
  have hh1 : (rb.head_ + 0) % SIZET_MOD = rb.head_ + 0 :=
    Nat.mod_eq_of_lt (by simp only [SIZET_MOD]; omega)
  have hh : ((rb.head_ + 0) % SIZET_MOD) % rb.capacity_ = rb.head_ := by
    rw [hh1, Nat.add_zero]
    exact Nat.mod_eq_of_lt h3
  constructor
  · simp only [commit, ht, hs]
  · simp only [consume, hh, hs']

/-- C9 witness: zero-length commit and consume on the fresh buffer. -/
theorem c9_witness : commit st0 0 = st0 ∧ consume st0 0 = st0 :=
  c9_zero_commit_consume_id st0 reach_st0

/-- C10: move-assigning a buffer to itself (`rb = std::move(rb)`, where
`this` and `other` alias the same object) leaves all five members —
storage pointer, capacity, head, tail and size — unchanged. -/
theorem c10_self_move_assign (rb : LinearRingbuffer) : move_assign_self rb = rb := rfl

end Bev
